import Mathlib

/-!
Verification of the SoA-simulation components in `SimComponents.py` against
the natural-language specification.

The Python code is shallowly embedded: virtual times and request sizes are
exact rationals (`ℚ`), component state is an explicit record threaded through
step functions, SimPy process bodies become recursive functions or small-step
relations, and Python exceptions become an explicit `Option PyErr` outcome
threaded alongside the mutated state (mutations performed before a raise
persist, as they do in Python).
-/

/-- A Python exception relevant to this codebase. -/
inductive PyErr where
  | nameError
  | callbackError
deriving DecidableEq

/-- Outcome of calling one completion callback (`c()` in
`RequestCompleter.run`): either it returns normally — in this codebase the
only real callback is `PQueueBrancher`'s counter decrement, which cannot
raise — or it raises some exception. -/
inductive Cb where
  | ok
  | raises
deriving DecidableEq

/-- `Request.__init__` (SimComponents.py lines 36-43): arrival time, size,
id, source tag; `completed` starts as `None`, the callback list starts
empty.  The one-shot `completion_event` is represented implicitly: the
`Act.fireEvent` log action below records any `succeed()` call on it, and no
code in the repository ever performs one. -/
structure Request where
  time : ℚ
  size : ℚ
  id : ℕ
  src : String
  completed : Option ℚ
  completion_cbs : List Cb
deriving DecidableEq

/-- Observable actions of a `RequestCompleter.run` loop iteration, in the
order the interpreter performs them; used to state ordering claims. -/
inductive Act where
  | dequeue (id : ℕ)
  | hold (id : ℕ)
  | invokeCb (id : ℕ) (k : ℕ)
  | setCompleted (id : ℕ)
  | fireEvent (id : ℕ)
  | forward (id : ℕ)
  | clearBusy (id : ℕ)
deriving DecidableEq

/-- State of a `RequestCompleter` (SimComponents.py lines 187-197) together
with its environment: `store` is the SimPy `Store`'s FIFO item list, `now`
the environment's virtual clock, `out` the list of requests its downstream
target has received (in order), and `log` the chronological action log. -/
structure CState where
  store : List Request
  busy : ℕ
  time_spent : ℚ
  extra_delay_factor : ℚ
  now : ℚ
  out : List Request
  log : List Act
deriving DecidableEq

/-- The `for c in req.completion_cbs: c()` loop in `RequestCompleter.run`
(lines 205-206).  There is no try/except: the first raising callback
propagates immediately and the remaining callbacks are not called.  Returns
the invocation log entries (callback `k` is logged when `c()` is entered)
and the propagated exception, if any. -/
def invokeCbs (id : ℕ) (k : ℕ) : List Cb → List Act × Option PyErr
  | [] => ([], none)
  | .ok :: rest =>
      let r := invokeCbs id (k + 1) rest
      (.invokeCb id k :: r.1, r.2)
  | .raises :: _ => ([.invokeCb id k], some .callbackError)

/-- One iteration of `RequestCompleter.run` (lines 199-211), entered when the
store is nonempty (with an empty store, `yield self.store.get()` keeps the
process suspended and nothing happens).  Mirrors the source line by line:
`req = yield store.get()`; `busy = 1`; `time_spent += req.size`;
`yield timeout(req.size * extra_delay_factor)`; `for c in completion_cbs:
c()`; `req.completed = env.now`; `out.put(req)`; `busy = 0`.  A raising
callback aborts the iteration there, keeping all mutations made so far. -/
def completerIter (s : CState) : CState × Option PyErr :=
  match s.store with
  | [] => (s, none)
  | req :: rest =>
      let now' := s.now + req.size * s.extra_delay_factor
      let r := invokeCbs req.id 0 req.completion_cbs
      let baseLog := s.log ++ [.dequeue req.id, .hold req.id] ++ r.1
      match r.2 with
      | some e =>
          ({ s with
              store := rest
              busy := 1
              time_spent := s.time_spent + req.size
              now := now'
              log := baseLog }, some e)
      | none =>
          ({ store := rest
             busy := 0
             time_spent := s.time_spent + req.size
             extra_delay_factor := s.extra_delay_factor
             now := now'
             out := s.out ++ [{ req with completed := some now' }]
             log := baseLog ++ [.setCompleted req.id, .forward req.id,
                                .clearBusy req.id] }, none)

/-- Fuel-indexed driver of the `while True` loop of `RequestCompleter.run`:
runs up to `n` iterations, stopping early on a propagated exception (which
kills the SimPy process). -/
def completerRunN : ℕ → CState → CState × Option PyErr
  | 0, s => (s, none)
  | n + 1, s =>
      match completerIter s with
      | (s', some e) => (s', some e)
      | (s', none) => completerRunN n s'

/-- Run the completer until its store is drained (or a callback raises):
`store.length` iterations suffice since each consumes one item. -/
def completerRun (s : CState) : CState × Option PyErr :=
  completerRunN s.store.length s

/-- Closed form for the requests a completer forwards downstream when all
callbacks return normally: request `k` is stamped with the virtual time
reached after serially holding for `size * f` for itself and each of its
predecessors. -/
def completeList (now f : ℚ) : List Request → List Request
  | [] => []
  | r :: rs =>
      { r with completed := some (now + r.size * f) } ::
        completeList (now + r.size * f) f rs

/-- Every callback of every request in the list returns normally. -/
def AllCbsOk (l : List Request) : Prop :=
  ∀ r ∈ l, ∀ cb ∈ r.completion_cbs, cb = Cb.ok

/-- The ids whose completion timestamp was written, in log order. -/
def setCompletedIds (log : List Act) : List ℕ :=
  log.filterMap fun a =>
    match a with
    | .setCompleted i => some i
    | _ => none

/-- `RequestCompleter.inflight` (lines 213-214) computes
`len(self.store.items) + busy`.  `busy` there is a bare name, not
`self.busy`; name resolution finds no local, no module-level global (the
module defines only imports and classes) and no builtin of that name, so
every call raises `NameError`.  `moduleGlobalBusy` embeds that lookup. -/
def moduleGlobalBusy : Option ℕ := none

/-- `RequestCompleter.inflight` (SimComponents.py lines 213-214):
`return len(self.store.items) + busy`. -/
def completerInflight (s : CState) : Except PyErr ℕ :=
  match moduleGlobalBusy with
  | some b => .ok (s.store.length + b)
  | none => .error .nameError

/-- What the specification (section 4.3) says `inflight()` should return:
the number of waiting items plus one if busy. -/
def inflightSpec (s : CState) : ℕ :=
  s.store.length + s.busy

/-- `RequestGenerator.run` (SimComponents.py lines 82-92) reduced to the put
times it produces.  `now` starts at the generator's start time plus
`initial_delay` (the first `yield env.timeout(initial_delay)`); `as` is the
successive draws of `adist`.  The loop guard `while env.now < finish` is
evaluated BEFORE the inter-arrival `yield env.timeout(adist())`, and the
request is emitted unconditionally after that wait, at time `now + a`. -/
def genRun (finish : ℚ) (now : ℚ) : List ℚ → List ℚ
  | [] => []
  | a :: as =>
      if now < finish then (now + a) :: genRun finish (now + a) as else []

/-- Configuration flags of a `RequestSink` (constructor, lines 115-127). -/
structure SinkCfg where
  rec_waits : Bool
  rec_arrivals : Bool
  absolute_arrivals : Bool
  selector : Option (Request → Bool)

/-- Mutable state of a `RequestSink`; the constructor initializes
`waits = []`, `arrivals = []`, `requests_rec = 0`, `bytes_rec = 0`,
`last_arrival = 0.0`. -/
structure SinkState where
  waits : List ℚ
  arrivals : List ℚ
  requests_rec : ℕ
  bytes_rec : ℚ
  last_arrival : ℚ
deriving DecidableEq

/-- The freshly constructed sink state. -/
def sinkInit : SinkState :=
  { waits := [], arrivals := [], requests_rec := 0, bytes_rec := 0,
    last_arrival := 0 }

/-- The guard `if not self.selector or self.selector(pkt)` of
`RequestSink.put` (line 130). -/
def sinkAccepts (cfg : SinkCfg) (pkt : Request) : Bool :=
  match cfg.selector with
  | none => true
  | some f => f pkt

/-- `RequestSink.put` (SimComponents.py lines 129-143), called with the
environment clock at `now`.  Inside the selector guard: append the wait if
`rec_waits`; if `rec_arrivals`, append `now` when `absolute_arrivals` else
`now - last_arrival`, then set `last_arrival = now`; bump the counters. -/
def sinkPut (cfg : SinkCfg) (s : SinkState) (now : ℚ) (pkt : Request) :
    SinkState :=
  if sinkAccepts cfg pkt then
    let s1 := if cfg.rec_waits then { s with waits := s.waits ++ [now - pkt.time] }
              else s
    let s2 :=
      if cfg.rec_arrivals then
        { s1 with
            arrivals := s1.arrivals ++
              [if cfg.absolute_arrivals then now else now - s1.last_arrival]
            last_arrival := now }
      else s1
    { s2 with
        requests_rec := s2.requests_rec + 1
        bytes_rec := s2.bytes_rec + pkt.size }
  else s

/-- Feed a sequence of `(env.now, request)` arrivals to the sink. -/
def sinkRun (cfg : SinkCfg) (s : SinkState) : List (ℚ × Request) → SinkState
  | [] => s
  | (t, p) :: rest => sinkRun cfg (sinkPut cfg s t p) rest

/-- The arrival times of the trace entries the selector accepts. -/
def acceptedTimes (cfg : SinkCfg) (trace : List (ℚ × Request)) : List ℚ :=
  (trace.filter fun e => sinkAccepts cfg e.2).map Prod.fst

/-- Specification-side description of delta arrival recording: the gaps
between consecutive times, measured from `prev` for the first one. -/
def gapsFrom (prev : ℚ) : List ℚ → List ℚ
  | [] => []
  | t :: ts => (t - prev) :: gapsFrom t ts

/-- Where a `SynchronousForwarder.putAndWait` process (SimComponents.py
lines 163-169) currently is: suspended at `yield slot` (slot not granted),
suspended at `yield event` (slot held, request already forwarded), or
finished (slot released). -/
inductive Phase where
  | acquiring
  | waitingCompletion
  | done
deriving DecidableEq

/-- One spawned `putAndWait` process. -/
structure FProc where
  reqId : ℕ
  phase : Phase
deriving DecidableEq

/-- State of a `SynchronousForwarder` (lines 156-161) plus environment:
`procs` are the spawned `putAndWait` processes in spawn order, `downstream`
the request ids its `out` target has received, `capacity` the `N` of the
`simpy.Resource`. -/
structure FState where
  requests_rec : ℕ
  capacity : ℕ
  procs : List FProc
  downstream : List ℕ
deriving DecidableEq

/-- Number of resource slots currently held: one per process suspended at
`yield event` (it acquired its slot and has not released it yet). -/
def slotsHeld (s : FState) : ℕ :=
  (s.procs.filter fun p => p.phase = Phase.waitingCompletion).length

/-- `SynchronousForwarder.put` (SimComponents.py lines 171-176): increment
`requests_rec`, spawn `putAndWait(req, req.completion_event)` as a new SimPy
process, and return `True`.  The call runs straight through — it contains no
yield, so control returns to the caller immediately whether or not any slot
is free. -/
def fwdPut (s : FState) (reqId : ℕ) : FState × Bool :=
  ({ s with
      requests_rec := s.requests_rec + 1
      procs := s.procs ++ [{ reqId := reqId, phase := .acquiring }] }, true)

/-- Engine steps advancing a forwarder's spawned processes (the body of
`putAndWait`, lines 163-169) and the producer-side `put` calls.
`grant` resumes the earliest process suspended at `yield slot` once a slot
is free (`simpy.Resource` grants FIFO); the resumed process then runs
`self.out.put(req)` and suspends at `yield event`.  `fire` models the
request's completion event firing: the process resumes, releases its slot
and returns.  (No code in this repository ever fires a completion event, so
`fire` never actually happens in a run of the unmodified code; it is
included to model the full body of `putAndWait`.) -/
inductive FStep : FState → FState → Prop where
  | put (s : FState) (reqId : ℕ) : FStep s (fwdPut s reqId).1
  | grant (s : FState) (l₁ l₂ : List FProc) (p : FProc)
      (hprocs : s.procs = l₁ ++ p :: l₂)
      (hp : p.phase = .acquiring)
      (hfirst : ∀ q ∈ l₁, q.phase ≠ Phase.acquiring)
      (hcap : slotsHeld s < s.capacity) :
      FStep s { s with
                 procs := l₁ ++ { p with phase := .waitingCompletion } :: l₂
                 downstream := s.downstream ++ [p.reqId] }
  | fire (s : FState) (l₁ l₂ : List FProc) (p : FProc)
      (hprocs : s.procs = l₁ ++ p :: l₂)
      (hp : p.phase = .waitingCompletion) :
      FStep s { s with procs := l₁ ++ { p with phase := .done } :: l₂ }

/-- A forwarder with no spawned processes yet. -/
def fwdInit (n : ℕ) : FState :=
  { requests_rec := 0, capacity := n, procs := [], downstream := [] }

/-- Forwarder states reachable from a fresh forwarder of capacity `n`. -/
def FReachable (n : ℕ) (s : FState) : Prop :=
  Relation.ReflTransGen FStep (fwdInit n) s

/-- Strict-less-or-equal in Python's lexicographic tuple order on
`(priority, index)` pairs, as `heapq` compares heap entries. -/
def lexLe (a b : ℤ × ℕ) : Bool :=
  a.1 < b.1 || (a.1 = b.1 && a.2 ≤ b.2)

/-- The multiset of entries pushed onto the heap `h` in
`PQueueBrancher.put` (lines 281-284): `(self.inflight[i], i)` for
`i in range(self.n_outs)`, with `i` starting at `start`. -/
def pqPairs : List ℤ → ℕ → List (ℤ × ℕ)
  | [], _ => []
  | c :: cs, i => (c, i) :: pqPairs cs (i + 1)

/-- Functional model of `heappop` on a heap holding exactly the given
entries: it removes and returns the smallest entry in lexicographic order
(the `heapq` invariant guarantees exactly this observable behavior). -/
def heapMin : List (ℤ × ℕ) → Option (ℤ × ℕ)
  | [] => none
  | x :: xs =>
      match heapMin xs with
      | none => some x
      | some m => some (if lexLe x m then x else m)

/-- `priority, index = heappop(h)` after the heap-build loop of
`PQueueBrancher.put`: the lexicographically least `(inflight[i], i)`. -/
def selectOut (infl : List ℤ) : Option (ℤ × ℕ) :=
  heapMin (pqPairs infl 0)

/-- State of a `PQueueBrancher` (SimComponents.py lines 266-291) plus the
bookkeeping needed to state its invariant.  `pending` lists, in routing
order, the chosen output index of each request the brancher has routed whose
completion callback has not yet been invoked — i.e. the
`lambda b=self, i=index: b.decrement(i)` closures appended at line 289 that
are still waiting to run.  `completedCount` counts the routed requests whose
callback has been invoked. -/
structure BState where
  inflight : List ℤ
  out_stats : List ℕ
  requests_rec : ℕ
  pending : List ℕ
  completedCount : ℕ
deriving DecidableEq

/-- A freshly constructed `PQueueBrancher` over `n` outputs:
`inflight = [0]*n`, `out_stats = [0]*n`, `requests_rec = 0`, and no routed
request awaiting completion. -/
def bInit (n : ℕ) : BState :=
  { inflight := List.replicate n 0
    out_stats := List.replicate n 0
    requests_rec := 0
    pending := []
    completedCount := 0 }

/-- Events touching one `PQueueBrancher` during a run.
`route` is `put(req)` (lines 278-291): bump `requests_rec`, pick the heap
minimum `(c, i)` of the `(inflight[i], i)` pairs, increment `inflight[i]`,
append the decrement callback (a new `pending` entry for `i`), forward, bump
`out_stats[i]`.  `complete` is the completer invoking one routed request's
callback (`RequestCompleter.run` line 205-206 calling the closure, which
runs `decrement(i)`, line 275-276) — the completer dequeues each stored
request exactly once, so each pending entry is consumed exactly once. -/
inductive BStep : BState → BState → Prop where
  | route (s : BState) (c : ℤ) (i : ℕ)
      (hsel : selectOut s.inflight = some (c, i)) :
      BStep s { inflight := s.inflight.set i (c + 1)
                out_stats := s.out_stats.set i (s.out_stats.getD i 0 + 1)
                requests_rec := s.requests_rec + 1
                pending := s.pending ++ [i]
                completedCount := s.completedCount }
  | complete (s : BState) (l₁ l₂ : List ℕ) (i : ℕ)
      (hpend : s.pending = l₁ ++ i :: l₂) :
      BStep s { inflight := s.inflight.set i (s.inflight.getD i 0 - 1)
                out_stats := s.out_stats
                requests_rec := s.requests_rec
                pending := l₁ ++ l₂
                completedCount := s.completedCount + 1 }

/-- Brancher states reachable from a fresh brancher over `n` outputs. -/
def BReachable (n : ℕ) (s : BState) : Prop :=
  Relation.ReflTransGen BStep (bInit n) s

/-! ### Helper lemmas -/

lemma lexLe_refl (a : ℤ × ℕ) : lexLe a a = true := by
  simp [lexLe]

lemma lexLe_trans {a b c : ℤ × ℕ} (h1 : lexLe a b = true)
    (h2 : lexLe b c = true) : lexLe a c = true := by
  simp only [lexLe, Bool.or_eq_true, Bool.and_eq_true, decide_eq_true_eq] at *
  omega

lemma lexLe_total (a b : ℤ × ℕ) : lexLe a b = true ∨ lexLe b a = true := by
  simp only [lexLe, Bool.or_eq_true, Bool.and_eq_true, decide_eq_true_eq]
  omega

lemma heapMin_mem {l : List (ℤ × ℕ)} :
    ∀ {p : ℤ × ℕ}, heapMin l = some p → p ∈ l := by
  induction l with
  | nil => intro p h; simp [heapMin] at h
  | cons x xs ih =>
      intro p h
      simp only [heapMin] at h
      cases hxs : heapMin xs with
      | none =>
          rw [hxs] at h
          simp only [Option.some.injEq] at h
          simp [← h]
      | some m =>
          rw [hxs] at h
          simp only [Option.some.injEq] at h
          by_cases hc : lexLe x m = true
          · simp [hc] at h; simp [← h]
          · simp [hc] at h
            subst h
            exact List.mem_cons_of_mem x (ih hxs)

lemma heapMin_le {l : List (ℤ × ℕ)} :
    ∀ {p : ℤ × ℕ}, heapMin l = some p → ∀ q ∈ l, lexLe p q = true := by
  induction l with
  | nil => intro p h; simp [heapMin] at h
  | cons x xs ih =>
      intro p h
      simp only [heapMin] at h
      cases hxs : heapMin xs with
      | none =>
          rw [hxs] at h
          simp only [Option.some.injEq] at h
          subst h
          intro q hq
          rcases List.mem_cons.1 hq with rfl | hq'
          · exact lexLe_refl q
          · cases xs with
            | nil => simp at hq'
            | cons y ys =>
                simp only [heapMin] at hxs
                cases h' : heapMin ys <;> rw [h'] at hxs <;> simp at hxs
      | some m =>
          rw [hxs] at h
          simp only [Option.some.injEq] at h
          by_cases hc : lexLe x m = true
          · simp only [if_pos hc] at h
            intro q hq
            rcases List.mem_cons.1 hq with hqx | hq'
            · rw [← h, hqx]; exact lexLe_refl x
            · rw [← h]; exact lexLe_trans hc (ih hxs q hq')
          · simp only [if_neg hc] at h
            have hmx : lexLe m x = true := (lexLe_total x m).resolve_left hc
            intro q hq
            rcases List.mem_cons.1 hq with hqx | hq'
            · rw [← h, hqx]; exact hmx
            · rw [← h]; exact ih hxs q hq'

lemma pqPairs_length (l : List ℤ) (i : ℕ) : (pqPairs l i).length = l.length := by
  induction l generalizing i with
  | nil => rfl
  | cons c cs ih => simp [pqPairs, ih]

lemma pqPairs_mem {l : List ℤ} {i : ℕ} {q : ℤ × ℕ} :
    q ∈ pqPairs l i ↔ ∃ k, k < l.length ∧ q = (l.getD k 0, i + k) := by
  induction l generalizing i with
  | nil => simp [pqPairs]
  | cons c cs ih =>
      simp only [pqPairs, List.mem_cons, ih, List.length_cons]
      constructor
      · rintro (rfl | ⟨k, hk, rfl⟩)
        · exact ⟨0, by omega, by simp⟩
        · exact ⟨k + 1, by omega, by simp [List.getD]; ring_nf⟩
      · rintro ⟨k, hk, rfl⟩
        cases k with
        | zero => left; simp
        | succ k' =>
            right
            exact ⟨k', by omega, by simp [List.getD]; ring_nf⟩

lemma heapMin_isSome {l : List (ℤ × ℕ)} (h : l ≠ []) :
    ∃ p, heapMin l = some p := by
  cases l with
  | nil => exact absurd rfl h
  | cons x xs =>
      simp only [heapMin]
      cases heapMin xs with
      | none => exact ⟨x, rfl⟩
      | some m => exact ⟨_, rfl⟩

lemma getD_set_self {l : List ℤ} {i : ℕ} {a : ℤ} (h : i < l.length) :
    (l.set i a).getD i 0 = a := by
  induction l generalizing i with
  | nil => simp at h
  | cons x xs ih =>
      cases i with
      | zero => rfl
      | succ i' => simpa [List.set, List.getD] using ih (by simpa using h)

lemma getD_set_ne {l : List ℤ} {i j : ℕ} {a : ℤ} (h : i ≠ j) :
    (l.set i a).getD j 0 = l.getD j 0 := by
  induction l generalizing i j with
  | nil => simp
  | cons x xs ih =>
      cases i with
      | zero =>
          cases j with
          | zero => exact absurd rfl h
          | succ j' => rfl
      | succ i' =>
          cases j with
          | zero => rfl
          | succ j' => simpa [List.set, List.getD] using ih (by omega)

lemma sum_set {l : List ℤ} {i : ℕ} {a : ℤ} (h : i < l.length) :
    (l.set i a).sum = l.sum - l.getD i 0 + a := by
  induction l generalizing i with
  | nil => simp at h
  | cons x xs ih =>
      cases i with
      | zero => simp [List.getD]; ring
      | succ i' =>
          simp only [List.set, List.sum_cons, List.getD_cons_succ]
          rw [ih (by simpa using h)]
          ring

lemma getD_replicate_zero {n i : ℕ} : (List.replicate n (0 : ℤ)).getD i 0 = 0 := by
  induction n generalizing i with
  | zero => simp
  | succ n' ih =>
      cases i with
      | zero => rfl
      | succ i' => exact ih

lemma selectOut_isSome {infl : List ℤ} (h : 0 < infl.length) :
    ∃ p, selectOut infl = some p := by
  apply heapMin_isSome
  intro hnil
  have := pqPairs_length infl 0
  rw [hnil] at this
  simp at this
  omega

lemma selectOut_spec {infl : List ℤ} {c : ℤ} {i : ℕ}
    (h : selectOut infl = some (c, i)) :
    i < infl.length ∧ infl.getD i 0 = c ∧
      (∀ k, k < infl.length → c ≤ infl.getD k 0) ∧
      (∀ k, k < infl.length → infl.getD k 0 = c → i ≤ k) := by
  have hmem := heapMin_mem h
  have hle := heapMin_le h
  rw [pqPairs_mem] at hmem
  obtain ⟨k, hk, hkq⟩ := hmem
  rw [Prod.ext_iff] at hkq
  simp only at hkq
  obtain ⟨hc, hi⟩ := hkq
  have hik : i = k := by omega
  subst hik
  refine ⟨hk, hc.symm, ?_, ?_⟩
  · intro k' hk'
    have hq' : (infl.getD k' 0, k') ∈ pqPairs infl 0 := by
      rw [pqPairs_mem]
      exact ⟨k', hk', by simp⟩
    have := hle _ hq'
    simp only [lexLe, Bool.or_eq_true, Bool.and_eq_true, decide_eq_true_eq]
      at this
    omega
  · intro k' hk' heq2
    have hq' : (infl.getD k' 0, k') ∈ pqPairs infl 0 := by
      rw [pqPairs_mem]
      exact ⟨k', hk', by simp⟩
    have := hle _ hq'
    simp only [lexLe, Bool.or_eq_true, Bool.and_eq_true, decide_eq_true_eq]
      at this
    omega

lemma invokeCbs_ok (id k : ℕ) (cbs : List Cb)
    (h : ∀ cb ∈ cbs, cb = Cb.ok) :
    invokeCbs id k cbs =
      ((List.range' k cbs.length).map (Act.invokeCb id), none) := by
  induction cbs generalizing k with
  | nil => simp [invokeCbs]
  | cons cb rest ih =>
      have hcb : cb = Cb.ok := h cb (List.mem_cons_self cb rest)
      subst hcb
      have hrest : ∀ cb ∈ rest, cb = Cb.ok :=
        fun cb hc => h cb (List.mem_cons_of_mem _ hc)
      simp [invokeCbs, ih (k + 1) hrest, List.range'_succ]

lemma invokeCbs_raises (id k : ℕ) (pre post : List Cb)
    (h : ∀ cb ∈ pre, cb = Cb.ok) :
    invokeCbs id k (pre ++ Cb.raises :: post) =
      ((List.range' k (pre.length + 1)).map (Act.invokeCb id),
        some PyErr.callbackError) := by
  induction pre generalizing k with
  | nil => simp [invokeCbs, List.range'_succ]
  | cons cb rest ih =>
      have hcb : cb = Cb.ok := h cb (List.mem_cons_self cb rest)
      subst hcb
      have hrest : ∀ cb ∈ rest, cb = Cb.ok :=
        fun cb hc => h cb (List.mem_cons_of_mem _ hc)
      simp only [List.cons_append, invokeCbs, List.append_eq]
      rw [ih (k + 1) hrest]
      simp [List.range'_succ]

lemma setCompletedIds_append (a b : List Act) :
    setCompletedIds (a ++ b) = setCompletedIds a ++ setCompletedIds b :=
  List.filterMap_append a b _

lemma setCompletedIds_invokes (id : ℕ) (l : List ℕ) :
    setCompletedIds (l.map (Act.invokeCb id)) = [] := by
  induction l with
  | nil => rfl
  | cons k ks ih =>
      simp only [List.map_cons, setCompletedIds, List.filterMap_cons]
      exact ih

lemma completerIter_ok (s : CState) (req : Request) (rest : List Request)
    (hstore : s.store = req :: rest)
    (hok : ∀ cb ∈ req.completion_cbs, cb = Cb.ok) :
    completerIter s =
      ({ store := rest
         busy := 0
         time_spent := s.time_spent + req.size
         extra_delay_factor := s.extra_delay_factor
         now := s.now + req.size * s.extra_delay_factor
         out := s.out ++
           [{ req with completed := some (s.now + req.size * s.extra_delay_factor) }]
         log := s.log ++ [.dequeue req.id, .hold req.id] ++
           (List.range' 0 req.completion_cbs.length).map (Act.invokeCb req.id) ++
           [.setCompleted req.id, .forward req.id, .clearBusy req.id] }, none) := by
  simp only [completerIter, hstore, invokeCbs_ok req.id 0 req.completion_cbs hok]

lemma completerIter_raises (s : CState) (req : Request) (rest : List Request)
    (pre post : List Cb)
    (hstore : s.store = req :: rest)
    (hcbs : req.completion_cbs = pre ++ Cb.raises :: post)
    (hok : ∀ cb ∈ pre, cb = Cb.ok) :
    completerIter s =
      ({ s with
          store := rest
          busy := 1
          time_spent := s.time_spent + req.size
          now := s.now + req.size * s.extra_delay_factor
          log := s.log ++ [.dequeue req.id, .hold req.id] ++
            (List.range' 0 (pre.length + 1)).map (Act.invokeCb req.id) },
        some PyErr.callbackError) := by
  simp only [completerIter, hstore, hcbs,
    invokeCbs_raises req.id 0 pre post hok]

lemma completerRunN_ok (n : ℕ) :
    ∀ s : CState, AllCbsOk s.store → s.store.length ≤ n →
      (completerRunN n s).2 = none ∧
      (completerRunN n s).1.store = [] ∧
      (completerRunN n s).1.extra_delay_factor = s.extra_delay_factor ∧
      (completerRunN n s).1.out =
        s.out ++ completeList s.now s.extra_delay_factor s.store ∧
      (completerRunN n s).1.time_spent =
        s.time_spent + (s.store.map Request.size).sum ∧
      (completerRunN n s).1.now =
        s.now + (s.store.map Request.size).sum * s.extra_delay_factor ∧
      setCompletedIds (completerRunN n s).1.log =
        setCompletedIds s.log ++ s.store.map Request.id := by
  induction n with
  | zero =>
      intro s _ hlen
      have hnil : s.store = [] := List.length_eq_zero.mp (Nat.le_zero.mp hlen)
      simp [completerRunN, hnil, completeList]
  | succ n ih =>
      intro s hok hlen
      cases hstore : s.store with
      | nil =>
          have hiter : completerIter s = (s, none) := by
            simp [completerIter, hstore]
          simp only [completerRunN, hiter]
          have := ih s hok (by simp [hstore])
          simpa [hstore, completeList] using this
      | cons req rest =>
          have hreq : ∀ cb ∈ req.completion_cbs, cb = Cb.ok :=
            hok req (by rw [hstore]; exact List.mem_cons_self req rest)
          have hrest : AllCbsOk rest :=
            fun r hr => hok r (by rw [hstore]; exact List.mem_cons_of_mem _ hr)
          have hiter := completerIter_ok s req rest hstore hreq
          simp only [completerRunN, hiter]
          have hlen' : rest.length ≤ n := by
            have := hlen
            rw [hstore] at this
            simpa using this
          obtain ⟨h1, h2, h3, h4, h5, h6, h7⟩ :=
            ih { store := rest
                 busy := 0
                 time_spent := s.time_spent + req.size
                 extra_delay_factor := s.extra_delay_factor
                 now := s.now + req.size * s.extra_delay_factor
                 out := s.out ++
                   [{ req with
                       completed :=
                         some (s.now + req.size * s.extra_delay_factor) }]
                 log := s.log ++ [.dequeue req.id, .hold req.id] ++
                   (List.range' 0 req.completion_cbs.length).map
                     (Act.invokeCb req.id) ++
                   [.setCompleted req.id, .forward req.id,
                    .clearBusy req.id] }
              hrest hlen'
          refine ⟨h1, h2, h3, ?_, ?_, ?_, ?_⟩
          · rw [h4]
            simp [hstore, completeList, List.append_assoc]
          · rw [h5]
            simp only [hstore, List.map_cons, List.sum_cons]
            ring
          · rw [h6]
            simp only [hstore, List.map_cons, List.sum_cons]
            ring
          · rw [h7]
            simp [hstore, setCompletedIds_append, setCompletedIds_invokes,
              setCompletedIds, List.filterMap_cons]

lemma completeList_completed (f : ℚ) (hf : 0 ≤ f) (rs : List Request) :
    ∀ now : ℚ, (∀ r ∈ rs, 0 ≤ r.size) → (∀ r ∈ rs, r.time ≤ now) →
      ∀ r' ∈ completeList now f rs,
        ∃ c, r'.completed = some c ∧ r'.time ≤ c := by
  induction rs with
  | nil => intro now _ _ r' hr'; simp [completeList] at hr'
  | cons r rest ih =>
      intro now hsz ht r' hr'
      simp only [completeList, List.mem_cons] at hr'
      have hszr : 0 ≤ r.size := hsz r (List.mem_cons_self r rest)
      have hstep : 0 ≤ r.size * f := mul_nonneg hszr hf
      rcases hr' with rfl | hr'
      · refine ⟨now + r.size * f, rfl, ?_⟩
        have := ht r (List.mem_cons_self r rest)
        simp only
        linarith
      · refine ih (now + r.size * f) ?_ ?_ r' hr'
        · exact fun r2 h2 => hsz r2 (List.mem_cons_of_mem _ h2)
        · intro r2 h2
          have := ht r2 (List.mem_cons_of_mem _ h2)
          linarith

lemma genRun_ne_nil {finish now : ℚ} {as : List ℚ}
    (h : genRun finish now as ≠ []) : now < finish := by
  cases as with
  | nil => simp [genRun] at h
  | cons a as' =>
      by_contra hnot
      simp [genRun, if_neg hnot] at h

lemma sinkPut_accepted (cfg : SinkCfg) (s : SinkState) (t : ℚ) (p : Request)
    (hacc : sinkAccepts cfg p = true) (hra : cfg.rec_arrivals = true)
    (haa : cfg.absolute_arrivals = false) :
    (sinkPut cfg s t p).arrivals = s.arrivals ++ [t - s.last_arrival] ∧
      (sinkPut cfg s t p).last_arrival = t := by
  by_cases hw : cfg.rec_waits = true
  · simp [sinkPut, hacc, hra, haa, hw]
  · simp [sinkPut, hacc, hra, haa, hw]

lemma sinkPut_rejected (cfg : SinkCfg) (s : SinkState) (t : ℚ) (p : Request)
    (hacc : ¬ sinkAccepts cfg p = true) :
    sinkPut cfg s t p = s := by
  simp [sinkPut, hacc]

lemma sinkRun_arrivals (cfg : SinkCfg) (hra : cfg.rec_arrivals = true)
    (haa : cfg.absolute_arrivals = false) (trace : List (ℚ × Request)) :
    ∀ s : SinkState,
      (sinkRun cfg s trace).arrivals =
        s.arrivals ++ gapsFrom s.last_arrival (acceptedTimes cfg trace) := by
  induction trace with
  | nil => intro s; simp [sinkRun, acceptedTimes, gapsFrom]
  | cons e rest ih =>
      intro s
      obtain ⟨t, p⟩ := e
      by_cases hacc : sinkAccepts cfg p = true
      · obtain ⟨ha, hl⟩ := sinkPut_accepted cfg s t p hacc hra haa
        have htimes : acceptedTimes cfg ((t, p) :: rest) =
            t :: acceptedTimes cfg rest := by
          simp [acceptedTimes, List.filter_cons, hacc]
        simp only [sinkRun, htimes, gapsFrom, ih (sinkPut cfg s t p), ha, hl,
          List.append_assoc, List.singleton_append]
      · have htimes : acceptedTimes cfg ((t, p) :: rest) =
            acceptedTimes cfg rest := by
          simp [acceptedTimes, List.filter_cons, hacc]
        simp only [sinkRun, htimes, sinkPut_rejected cfg s t p hacc, ih s]

lemma freachable_inv {n : ℕ} {s : FState} (h : FReachable n s) :
    s.capacity = n ∧ slotsHeld s ≤ n := by
  induction h with
  | refl => simp [fwdInit, slotsHeld]
  | @tail b c hr hstep ih =>
      obtain ⟨hcap, hslots⟩ := ih
      cases hstep with
      | put reqId =>
          constructor
          · simpa [fwdPut] using hcap
          · simpa [fwdPut, slotsHeld, List.filter_append] using hslots
      | grant l₁ l₂ p hprocs hp hfirst hcap2 =>
          refine ⟨hcap, ?_⟩
          rw [hcap] at hcap2
          have hold : slotsHeld b =
              (l₁.filter fun q => q.phase = Phase.waitingCompletion).length +
              (l₂.filter fun q => q.phase = Phase.waitingCompletion).length := by
            simp [slotsHeld, hprocs, List.filter_append, List.filter_cons, hp]
          have hnew :
              slotsHeld { b with
                  procs := l₁ ++ { p with phase := .waitingCompletion } :: l₂
                  downstream := b.downstream ++ [p.reqId] } =
              (l₁.filter fun q => q.phase = Phase.waitingCompletion).length +
              (l₂.filter fun q => q.phase = Phase.waitingCompletion).length +
              1 := by
            simp [slotsHeld, List.filter_append, List.filter_cons]
            omega
          rw [hold] at hcap2
          omega
      | fire l₁ l₂ p hprocs hp =>
          refine ⟨hcap, ?_⟩
          have hold : slotsHeld b =
              (l₁.filter fun q => q.phase = Phase.waitingCompletion).length +
              (l₂.filter fun q => q.phase = Phase.waitingCompletion).length +
              1 := by
            simp [slotsHeld, hprocs, List.filter_append, List.filter_cons, hp]
            omega
          have hnew :
              slotsHeld { b with
                  procs := l₁ ++ { p with phase := .done } :: l₂ } =
              (l₁.filter fun q => q.phase = Phase.waitingCompletion).length +
              (l₂.filter fun q => q.phase = Phase.waitingCompletion).length := by
            simp [slotsHeld, List.filter_append, List.filter_cons]
          rw [hold] at hslots
          omega





lemma breachable_inv {n : ℕ} {s : BState} (h : BReachable n s) :
    s.inflight.length = n ∧
    (∀ j ∈ s.pending, j < n) ∧
    (∀ i, i < n → s.inflight.getD i 0 = (s.pending.count i : ℤ)) ∧
    s.inflight.sum = (s.pending.length : ℤ) ∧
    s.requests_rec = s.pending.length + s.completedCount := by
  induction h with
  | refl =>
      refine ⟨by simp [bInit], by simp [bInit], ?_, by simp [bInit], by simp [bInit]⟩
      intro i _
      simp [bInit, getD_replicate_zero]
  | @tail b c hr hstep ih =>
      obtain ⟨hlen, hpent, hcnt, hsum, hrec⟩ := ih
      cases hstep with
      | route cc i hsel =>
          obtain ⟨hilt, hgd, _, _⟩ := selectOut_spec hsel
          rw [hlen] at hilt
          constructor
          · simpa using hlen
          constructor
          · intro j hj
            simp only [List.mem_append, List.mem_singleton] at hj
            rcases hj with hj | rfl
            · exact hpent j hj
            · exact hilt
          constructor
          · intro i' hi'
            by_cases hii : i' = i
            · subst hii
              rw [getD_set_self (by omega)]
              rw [List.count_append, List.count_singleton]
              have := hcnt i' hi'
              rw [hgd] at this
              simp [← this]
            · rw [getD_set_ne (fun hEq => hii hEq.symm)]
              rw [List.count_append]
              have hzero : List.count i' [i] = 0 := by
                simp [List.count_singleton]
                omega
              rw [hzero]
              simpa using hcnt i' hi'
          constructor
          · rw [sum_set (by omega), hgd, hsum]
            simp
            ring
          · simp only [List.length_append, List.length_singleton]
            omega
      | complete l₁ l₂ i hpend =>
          have hipend : i ∈ b.pending := by
            rw [hpend]; exact List.mem_append_right l₁ (List.mem_cons_self i l₂)
          have hilt : i < n := hpent i hipend
          have hcnti := hcnt i hilt
          have hcount_pend : b.pending.count i = (l₁ ++ l₂).count i + 1 := by
            rw [hpend]
            simp [List.count_append, List.count_cons]
            omega
          constructor
          · simpa using hlen
          constructor
          · intro j hj
            apply hpent
            rw [hpend]
            simp only [List.mem_append, List.mem_cons] at hj ⊢
            tauto
          constructor
          · intro i' hi'
            by_cases hii : i' = i
            · subst hii
              rw [getD_set_self (by omega), hcnti, hcount_pend]
              push_cast
              ring
            · rw [getD_set_ne (fun hEq => hii hEq.symm)]
              have : b.pending.count i' = (l₁ ++ l₂).count i' := by
                rw [hpend]
                simp [List.count_append, List.count_cons, hii]
              rw [← this]
              exact hcnt i' hi'
          constructor
          · rw [sum_set (by omega), hcnti, hsum, hpend]
            simp [List.length_append]
            ring
          · rw [hpend] at hrec
            simp only [List.length_append, List.length_cons] at hrec
            simp only [List.length_append]
            omega

/-! ### Concrete fixtures used by counterexamples and witnesses -/

/-- A request with a single well-behaved completion callback. -/
def reqA : Request :=
  { time := 0, size := 1, id := 1, src := "a", completed := none,
    completion_cbs := [.ok] }

/-- A fresh completer holding `reqA`. -/
def cstateA : CState :=
  { store := [reqA], busy := 0, time_spent := 0, extra_delay_factor := 1,
    now := 0, out := [], log := [] }

/-- A request whose first callback raises and whose second is well behaved. -/
def reqB : Request :=
  { time := 0, size := 1, id := 1, src := "a", completed := none,
    completion_cbs := [.raises, .ok] }

/-- A fresh completer holding `reqB`. -/
def cstateB : CState :=
  { store := [reqB], busy := 0, time_spent := 0, extra_delay_factor := 1,
    now := 0, out := [], log := [] }

/-- A capacity-1 forwarder whose only slot is held by the process of
request 1, which is suspended waiting for that request's completion
event. -/
def fwdSat : FState :=
  { requests_rec := 1, capacity := 1,
    procs := [{ reqId := 1, phase := .waitingCompletion }],
    downstream := [1] }

/-! ### Claim theorems -/

/-- Claim C1, counterexample: on a concrete one-request completer the
iteration log is NOT timestamp-then-callbacks-then-event-then-forward as the
claim states, and no completion event is ever fired. -/
theorem c1_counterexample :
    (completerIter cstateA).1.log ≠
      [.dequeue 1, .hold 1, .setCompleted 1, .invokeCb 1 0, .fireEvent 1,
       .forward 1, .clearBusy 1] ∧
    Act.fireEvent 1 ∉ (completerIter cstateA).1.log := by
  decide

/-- Claim C1 (amended): after holding for `size * extra_delay_factor`, the
completer first invokes every completion callback in registration order,
THEN sets the completion timestamp to the current virtual time, then
forwards the request downstream, then clears busy — and it never fires the
request's completion event. -/
theorem c1_completion_order (s : CState) (req : Request) (rest : List Request)
    (hstore : s.store = req :: rest)
    (hok : ∀ cb ∈ req.completion_cbs, cb = Cb.ok)
    (hnofire : ∀ i, Act.fireEvent i ∉ s.log) :
    (completerIter s).2 = none ∧
    (completerIter s).1.log =
      s.log ++ [.dequeue req.id, .hold req.id] ++
      (List.range' 0 req.completion_cbs.length).map (Act.invokeCb req.id) ++
      [.setCompleted req.id, .forward req.id, .clearBusy req.id] ∧
    (completerIter s).1.out =
      s.out ++
        [{ req with
            completed := some (s.now + req.size * s.extra_delay_factor) }] ∧
    (completerIter s).1.busy = 0 ∧
    ∀ i, Act.fireEvent i ∉ (completerIter s).1.log := by
  rw [completerIter_ok s req rest hstore hok]
  refine ⟨rfl, rfl, rfl, rfl, ?_⟩
  intro i hi
  rcases List.mem_append.1 hi with hi | hi
  · rcases List.mem_append.1 hi with hi | hi
    · rcases List.mem_append.1 hi with hi | hi
      · exact hnofire i hi
      · simp at hi
    · simp at hi
  · simp at hi

/-- Claim C1, witness: the amended order theorem evaluated on `cstateA`. -/
theorem c1_completion_order_witness :
    (completerIter cstateA).2 = none ∧
    (completerIter cstateA).1.log =
      cstateA.log ++ [.dequeue reqA.id, .hold reqA.id] ++
      (List.range' 0 reqA.completion_cbs.length).map (Act.invokeCb reqA.id) ++
      [.setCompleted reqA.id, .forward reqA.id, .clearBusy reqA.id] ∧
    (completerIter cstateA).1.out =
      cstateA.out ++
        [{ reqA with
            completed :=
              some (cstateA.now + reqA.size * cstateA.extra_delay_factor) }] ∧
    (completerIter cstateA).1.busy = 0 ∧
    ∀ i, Act.fireEvent i ∉ (completerIter cstateA).1.log :=
  c1_completion_order cstateA reqA [] rfl (by decide)
    (fun i hi => by simp [cstateA] at hi)

/-- Claim C2, counterexample: with every slot of a capacity-1 forwarder in
use, `put` still returns `True` immediately — the producer's call completes
with the request neither forwarded downstream nor through the gate, merely
queued as a new acquiring process. -/
theorem c2_counterexample :
    slotsHeld fwdSat = fwdSat.capacity ∧
    (fwdPut fwdSat 2).2 = true ∧
    2 ∉ (fwdPut fwdSat 2).1.downstream ∧
    (fwdPut fwdSat 2).1.procs.getLast? =
      some { reqId := 2, phase := .acquiring } := by
  decide

/-- Claim C2 (amended): `put` never suspends the caller — it returns `True`
at once, forwarding nothing and holding no slot itself; the waiting happens
in the spawned `putAndWait` process, and in every reachable forwarder state
at most `N` spawned processes hold slots (at most `N` requests are past the
gate and uncompleted). -/
theorem c2_put_nonblocking (n : ℕ) (s : FState) (h : FReachable n s)
    (reqId : ℕ) :
    (fwdPut s reqId).2 = true ∧
    (fwdPut s reqId).1.downstream = s.downstream ∧
    slotsHeld (fwdPut s reqId).1 = slotsHeld s ∧
    slotsHeld s ≤ n := by
  refine ⟨rfl, rfl, ?_, (freachable_inv h).2⟩
  simp [fwdPut, slotsHeld, List.filter_append]

/-- Claim C2, witness: the amended theorem evaluated after one real `put`
on a fresh capacity-1 forwarder. -/
theorem c2_put_nonblocking_witness :
    (fwdPut (fwdPut (fwdInit 1) 3).1 7).2 = true ∧
    (fwdPut (fwdPut (fwdInit 1) 3).1 7).1.downstream =
      (fwdPut (fwdInit 1) 3).1.downstream ∧
    slotsHeld (fwdPut (fwdPut (fwdInit 1) 3).1 7).1 =
      slotsHeld (fwdPut (fwdInit 1) 3).1 ∧
    slotsHeld (fwdPut (fwdInit 1) 3).1 ≤ 1 :=
  c2_put_nonblocking 1 (fwdPut (fwdInit 1) 3).1
    (Relation.ReflTransGen.single (FStep.put (fwdInit 1) 3)) 7

/-- Claim C7, counterexample: with callbacks `[raises, ok]` the exception
propagates out of the completion step — the second callback is never
invoked, the request is not forwarded, and the run loop dies — contradicting
the claimed per-callback isolation. -/
theorem c7_counterexample :
    (completerIter cstateB).2 = some PyErr.callbackError ∧
    Act.invokeCb 1 1 ∉ (completerIter cstateB).1.log ∧
    (completerIter cstateB).1.out = [] ∧
    Act.fireEvent 1 ∉ (completerIter cstateB).1.log := by
  decide

/-- Claim C7 (amended): a raising completion callback aborts the completion
step: the callbacks after it are not invoked, the completion timestamp is
never set, the request is not forwarded, busy stays set, the rest of the
queue is never processed, and the error propagates out of the run loop
(killing the completer's process). -/
theorem c7_callback_error_aborts (s : CState) (req : Request)
    (rest : List Request) (pre post : List Cb)
    (hstore : s.store = req :: rest)
    (hcbs : req.completion_cbs = pre ++ Cb.raises :: post)
    (hok : ∀ cb ∈ pre, cb = Cb.ok)
    (hlog : s.log = []) :
    (completerRun s).2 = some PyErr.callbackError ∧
    (completerRun s).1.log =
      [.dequeue req.id, .hold req.id] ++
      (List.range' 0 (pre.length + 1)).map (Act.invokeCb req.id) ∧
    (completerRun s).1.out = s.out ∧
    (completerRun s).1.busy = 1 ∧
    (completerRun s).1.store = rest ∧
    ∀ i, Act.setCompleted i ∉ (completerRun s).1.log := by
  have hiter := completerIter_raises s req rest pre post hstore hcbs hok
  have hrun : completerRun s =
      ({ s with
          store := rest
          busy := 1
          time_spent := s.time_spent + req.size
          now := s.now + req.size * s.extra_delay_factor
          log := s.log ++ [Act.dequeue req.id, Act.hold req.id] ++
            List.map (Act.invokeCb req.id) (List.range' 0 (pre.length + 1)) },
        some PyErr.callbackError) := by
    rw [completerRun, hstore]
    simp only [List.length_cons, completerRunN, hiter]
  rw [hrun]
  refine ⟨rfl, ?_, rfl, rfl, rfl, ?_⟩
  · rw [hlog]
    simp
  · intro i hi
    rw [hlog] at hi
    simp only [List.nil_append] at hi
    rcases List.mem_append.1 hi with hi | hi
    · simp at hi
    · simp at hi

/-- Claim C7, witness: the amended abort theorem evaluated on `cstateB`. -/
theorem c7_callback_error_aborts_witness :
    (completerRun cstateB).2 = some PyErr.callbackError ∧
    (completerRun cstateB).1.log =
      [.dequeue reqB.id, .hold reqB.id] ++
      (List.range' 0 (([] : List Cb).length + 1)).map (Act.invokeCb reqB.id) ∧
    (completerRun cstateB).1.out = cstateB.out ∧
    (completerRun cstateB).1.busy = 1 ∧
    (completerRun cstateB).1.store = [] ∧
    ∀ i, Act.setCompleted i ∉ (completerRun cstateB).1.log :=
  c7_callback_error_aborts cstateB reqB [] [] [.ok] rfl rfl
    (fun cb hcb => by cases hcb) rfl

/-- Claim C8: `RequestCompleter.inflight` cannot compute the queue depth —
its body reads the unbound bare name `busy`, so every call raises
`NameError` instead of returning `len(store.items) + busy`. -/
theorem c8_inflight_name_error (s : CState) :
    completerInflight s = Except.error PyErr.nameError := rfl

/-- Intermediate brancher state for the C3 witness run: one request routed
to output 0 of a fresh two-output brancher. -/
def bWit1 : BState :=
  { inflight := [1, 0], out_stats := [1, 0], requests_rec := 1,
    pending := [0], completedCount := 0 }

/-- Final brancher state for the C3 witness run: that request's completion
callback has been invoked. -/
def bWit2 : BState :=
  { inflight := [0, 0], out_stats := [1, 0], requests_rec := 1,
    pending := [], completedCount := 1 }

/-- Claim C3: in every reachable state of a `PQueueBrancher`, the sum of the
per-output inflight counters equals the number of requests routed minus the
number whose completion callback has run, and once no routed request is
pending every counter is exactly 0 (each routed request's callback
decrements its chosen output's counter exactly once, since the completer
consumes each pending callback exactly once). -/
theorem c3_inflight_conservation (n : ℕ) (s : BState) (h : BReachable n s) :
    s.inflight.sum = (s.requests_rec : ℤ) - (s.completedCount : ℤ) ∧
    (s.pending = [] → ∀ i, i < n → s.inflight.getD i 0 = 0) := by
  obtain ⟨hlen, hpent, hcnt, hsum, hrec⟩ := breachable_inv h
  constructor
  · rw [hsum, hrec]
    push_cast
    ring
  · intro hemp i hi
    rw [hcnt i hi, hemp]
    simp

/-- Claim C3, witness: the conservation theorem evaluated on a concrete
two-output brancher after one route and one completion. -/
theorem c3_inflight_conservation_witness :
    bWit2.inflight.sum = (bWit2.requests_rec : ℤ) - (bWit2.completedCount : ℤ) ∧
    (bWit2.pending = [] → ∀ i, i < 2 → bWit2.inflight.getD i 0 = 0) :=
  c3_inflight_conservation 2 bWit2
    (Relation.ReflTransGen.tail
      (Relation.ReflTransGen.single (BStep.route (bInit 2) 0 0 (by decide)))
      (BStep.complete bWit1 [] [] 0 rfl))

/-- Claim C4: `PQueueBrancher.put`'s heap selection returns an output index
whose inflight counter is less than or equal to every other output's counter
at the instant of routing, and among tied minima the lowest index wins. -/
theorem c4_select_minimum (infl : List ℤ) (h : 0 < infl.length) :
    ∃ j, j < infl.length ∧
      selectOut infl = some (infl.getD j 0, j) ∧
      (∀ k, k < infl.length → infl.getD j 0 ≤ infl.getD k 0) ∧
      (∀ k, k < infl.length → infl.getD k 0 = infl.getD j 0 → j ≤ k) := by
  obtain ⟨⟨c, j⟩, hsel⟩ := selectOut_isSome h
  obtain ⟨hj, hgd, hmin, htie⟩ := selectOut_spec hsel
  refine ⟨j, hj, ?_, ?_, ?_⟩
  · rw [hgd]; exact hsel
  · intro k hk
    rw [hgd]
    exact hmin k hk
  · intro k hk hEq
    exact htie k hk (by rw [hEq, hgd])

/-- Claim C4, witness: the selection theorem evaluated on counters
`[2, 1, 1]` (the minimum 1 is shared by indices 1 and 2; index 1 wins). -/
theorem c4_select_minimum_witness :
    ∃ j, j < ([2, 1, 1] : List ℤ).length ∧
      selectOut [2, 1, 1] = some (([2, 1, 1] : List ℤ).getD j 0, j) ∧
      (∀ k, k < ([2, 1, 1] : List ℤ).length →
        ([2, 1, 1] : List ℤ).getD j 0 ≤ ([2, 1, 1] : List ℤ).getD k 0) ∧
      (∀ k, k < ([2, 1, 1] : List ℤ).length →
        ([2, 1, 1] : List ℤ).getD k 0 = ([2, 1, 1] : List ℤ).getD j 0 →
        j ≤ k) :=
  c4_select_minimum [2, 1, 1] (by decide)

/-- Claim C5, counterexample: with horizon 10, start time 0 and inter-arrival
draws `[5, 6]`, the generator checks `now < finish` at 5, then waits and
emits at 11 — calling `put` at a virtual time past the horizon, which the
claim says never happens. -/
theorem c5_counterexample :
    (11 : ℚ) ∈ genRun 10 0 [5, 6] ∧ (10 : ℚ) ≤ 11 := by
  constructor
  · norm_num [genRun]
  · norm_num

/-- Claim C5 (amended): the horizon check happens before, not after, each
inter-arrival suspension, so the generator may emit at a time at or past the
horizon; what holds is that every emission except possibly the final one
occurs strictly before the horizon (after one late emission the loop guard
fails and the generator terminates). -/
theorem c5_horizon_check_before_wait (finish now : ℚ) (as : List ℚ) :
    ∀ t ∈ (genRun finish now as).dropLast, t < finish := by
  induction as generalizing now with
  | nil => simp [genRun]
  | cons a as' ih =>
      by_cases h : now < finish
      · rw [show genRun finish now (a :: as') =
            (now + a) :: genRun finish (now + a) as' from by
              simp [genRun, if_pos h]]
        cases hrest : genRun finish (now + a) as' with
        | nil => simp [List.dropLast_single]
        | cons b bs =>
            rw [List.dropLast_cons₂]
            intro t ht
            rcases List.mem_cons.1 ht with rfl | ht'
            · exact genRun_ne_nil (by rw [hrest]; exact List.cons_ne_nil b bs)
            · have hih := ih (now + a)
              rw [hrest] at hih
              exact hih t ht'
      · rw [show genRun finish now (a :: as') = [] from by
            simp [genRun, if_neg h]]
        simp

/-- Claim C5, witness: the amended horizon theorem evaluated on the concrete
run with horizon 10 and draws `[5, 6]` — the non-final emission at 5 is
before the horizon. -/
theorem c5_horizon_check_before_wait_witness :
    (5 : ℚ) ∈ (genRun 10 0 [5, 6]).dropLast ∧ (5 : ℚ) < 10 :=
  ⟨by norm_num [genRun, List.dropLast],
   c5_horizon_check_before_wait 10 0 [5, 6] 5
     (by norm_num [genRun, List.dropLast])⟩

/-- Claim C6: running a completer over its queue (well-behaved callbacks,
nonnegative sizes and delay factor, all arrival times at or before the
clock), every request it ever forwards carries a completion timestamp that
is set and at least its arrival time, and the full run writes each stored
request's timestamp exactly once — the log holds exactly one `setCompleted`
entry per stored request, in FIFO order, and a forwarded request is never
touched again. -/
theorem c6_completed_once_and_ordered (s : CState)
    (hok : AllCbsOk s.store)
    (hf : 0 ≤ s.extra_delay_factor)
    (hsz : ∀ r ∈ s.store, 0 ≤ r.size)
    (ht : ∀ r ∈ s.store, r.time ≤ s.now)
    (hout : s.out = []) (hlog : s.log = []) :
    (∀ r' ∈ (completerRun s).1.out,
      ∃ c, r'.completed = some c ∧ r'.time ≤ c) ∧
    setCompletedIds (completerRun s).1.log = s.store.map Request.id := by
  obtain ⟨h1, h2, h3, h4, h5, h6, h7⟩ :=
    completerRunN_ok s.store.length s hok le_rfl
  constructor
  · intro r' hr'
    rw [completerRun] at hr'
    rw [h4, hout, List.nil_append] at hr'
    exact completeList_completed s.extra_delay_factor hf s.store s.now hsz ht
      r' hr'
  · rw [completerRun, h7, hlog]
    simp [setCompletedIds]

/-- Claim C6, witness: the completion-timestamp theorem evaluated on
`cstateA`. -/
theorem c6_completed_once_and_ordered_witness :
    (∀ r' ∈ (completerRun cstateA).1.out,
      ∃ c, r'.completed = some c ∧ r'.time ≤ c) ∧
    setCompletedIds (completerRun cstateA).1.log =
      cstateA.store.map Request.id :=
  c6_completed_once_and_ordered cstateA
    (by intro r hr cb hcb; simp [cstateA, reqA] at hr hcb; rw [hr] at hcb; simpa using hcb)
    (by norm_num [cstateA])
    (by intro r hr; simp [cstateA, reqA] at hr; simp [hr, reqA])
    (by intro r hr; simp [cstateA, reqA] at hr; simp [hr, reqA, cstateA])
    rfl rfl

/-- Claim C9: `time_spent` accumulates the raw `req.size` of every dequeued
request before the scaled hold, so after draining the queue it equals the
plain sum of sizes; whenever `extra_delay_factor ≠ 1` and some work was done
it differs from the virtual time the completer actually spent busy
(`now` minus the starting clock). -/
theorem c9_time_spent_raw_sizes (s : CState)
    (hok : AllCbsOk s.store) (hts : s.time_spent = 0) :
    (completerRun s).1.time_spent = (s.store.map Request.size).sum ∧
    ((s.store.map Request.size).sum ≠ 0 → s.extra_delay_factor ≠ 1 →
      (completerRun s).1.time_spent ≠ (completerRun s).1.now - s.now) := by
  obtain ⟨h1, h2, h3, h4, h5, h6, h7⟩ :=
    completerRunN_ok s.store.length s hok le_rfl
  have hts' : (completerRun s).1.time_spent = (s.store.map Request.size).sum := by
    rw [completerRun, h5, hts, zero_add]
  refine ⟨hts', ?_⟩
  intro hS hfne hEq
  rw [hts'] at hEq
  rw [completerRun, h6] at hEq
  apply hfne
  have hprod : (s.store.map Request.size).sum * 1 =
      (s.store.map Request.size).sum * s.extra_delay_factor := by
    rw [mul_one]
    linarith
  exact (mul_left_cancel₀ hS hprod).symm

/-- Claim C9, witness: the raw-size accounting theorem evaluated on a
completer with one size-2 request and `extra_delay_factor = 3`. -/
theorem c9_time_spent_raw_sizes_witness :
    (completerRun
      { store := [{ time := 0, size := 2, id := 1, src := "a",
                    completed := none, completion_cbs := [] }]
        busy := 0, time_spent := 0, extra_delay_factor := 3, now := 0,
        out := [], log := [] }).1.time_spent =
      (List.map Request.size
        [{ time := 0, size := 2, id := 1, src := "a",
           completed := none, completion_cbs := ([] : List Cb) }]).sum ∧
    ((List.map Request.size
        [{ time := 0, size := 2, id := 1, src := "a",
           completed := none, completion_cbs := ([] : List Cb) }]).sum ≠ 0 →
      (3 : ℚ) ≠ 1 →
      (completerRun
        { store := [{ time := 0, size := 2, id := 1, src := "a",
                      completed := none, completion_cbs := [] }]
          busy := 0, time_spent := 0, extra_delay_factor := 3, now := 0,
          out := [], log := [] }).1.time_spent ≠
      (completerRun
        { store := [{ time := 0, size := 2, id := 1, src := "a",
                      completed := none, completion_cbs := [] }]
          busy := 0, time_spent := 0, extra_delay_factor := 3, now := 0,
          out := [], log := [] }).1.now - 0) :=
  c9_time_spent_raw_sizes _ (by intro r hr cb hcb; simp at hr; rw [hr] at hcb; simp at hcb) rfl

/-- Claim C10: for a sink with `rec_arrivals` and relative arrivals, the
recorded arrivals list is exactly the gaps between consecutive accepted
arrival times measured from the initial `last_arrival = 0.0`, so the first
recorded gap is the absolute time of the first matching request, and
requests rejected by the selector never move `last_arrival`. -/
theorem c10_arrival_gaps (cfg : SinkCfg) (trace : List (ℚ × Request))
    (hra : cfg.rec_arrivals = true) (haa : cfg.absolute_arrivals = false) :
    (sinkRun cfg sinkInit trace).arrivals =
      gapsFrom 0 (acceptedTimes cfg trace) := by
  have h := sinkRun_arrivals cfg hra haa trace sinkInit
  simpa [sinkInit] using h

/-- Sink configuration for the C10 witness: record relative arrivals of
requests whose source is `one`. -/
def cfgW : SinkCfg :=
  { rec_waits := true, rec_arrivals := true, absolute_arrivals := false,
    selector := some fun r => r.src == "one" }

/-- Trace for the C10 witness: matching arrivals at 3 and 7 with a
non-matching arrival at 5 in between. -/
def traceW : List (ℚ × Request) :=
  [(3, { time := 3, size := 1, id := 1, src := "one", completed := none,
         completion_cbs := [] }),
   (5, { time := 5, size := 1, id := 1, src := "two", completed := none,
         completion_cbs := [] }),
   (7, { time := 7, size := 1, id := 2, src := "one", completed := none,
         completion_cbs := [] })]

/-- Claim C10, witness: the gap-recording theorem evaluated on `traceW`;
the recorded gaps are `[3, 4]` — the absolute time of the first match, then
the distance between the two matches, skipping the rejected arrival. -/
theorem c10_arrival_gaps_witness :
    (sinkRun cfgW sinkInit traceW).arrivals =
      gapsFrom 0 (acceptedTimes cfgW traceW) ∧
    gapsFrom 0 (acceptedTimes cfgW traceW) = [3, 4] :=
  ⟨c10_arrival_gaps cfgW traceW rfl rfl, by
    have hacc : acceptedTimes cfgW traceW = [3, 7] := by
      simp [acceptedTimes, traceW, cfgW, sinkAccepts, List.filter_cons]
    rw [hacc]
    norm_num [gapsFrom]⟩
